import Mathlib

/-!
Verification of the retrieval core of the rag-memory-pg-mcp knowledge store
(`src/manager.js`).  Each JavaScript operation relevant to the claims is
shallowly embedded as an executable Lean definition:

* document text is `List Char`; JS numbers used as cursor positions are `Int`
  (the chunking cursor can in principle go negative when the step is negative);
* the PostgreSQL/Supabase tables are explicit lists of row structures, and a
  storage call becomes a pure transformation of that state;
* fallible steps return `Option`/`Except`; the unbounded `while` loop of
  `chunkDocument` is given a fuel parameter, `none` meaning the fuel ran out.
-/

namespace RagMemory

/-- A chunk as built by `chunkDocument` (`manager.js` lines 615–635):
zero-based sequential index, the substring content, and the start/end
character offsets of the window. -/
structure Chunk where
  index : Nat
  text : List Char
  startPos : Int
  endPos : Int
deriving Repr, DecidableEq

/-- Clamp a JS index argument into `[0, len]` and convert to `Nat`. -/
def clampIdx (len : Nat) (i : Int) : Nat := (max 0 (min i len)).toNat

/-- JS `String.prototype.substring(a, b)`: both arguments are clamped into
`[0, length]` and swapped when `a > b`; the result is the slice between them. -/
def jsSubstring (s : List Char) (a b : Int) : List Char :=
  (s.drop (min (clampIdx s.length a) (clampIdx s.length b))).take
    (max (clampIdx s.length a) (clampIdx s.length b) -
      min (clampIdx s.length a) (clampIdx s.length b))

/-- The `while (startPos < text.length)` loop of `chunkDocument`
(`manager.js` 615–635), with explicit fuel.  Each iteration takes the window
`[startPos, min(startPos + maxChunkSize, length))`, records the chunk, and
advances the cursor by `maxChunkSize - overlap` (as in JS, the cursor is a
signed number and the step may be zero or negative).  `none` means the fuel
was exhausted, i.e. the loop was still running. -/
def chunkLoop (text : List Char) (maxChunkSize overlap : Int) :
    Nat → Int → Nat → Option (List Chunk)
  | 0, _, _ => none
  | fuel + 1, startPos, chunkIndex =>
    if startPos < (text.length : Int) then
      let endPos := min (startPos + maxChunkSize) (text.length : Int)
      let chunkText := jsSubstring text startPos endPos
      match chunkLoop text maxChunkSize overlap fuel
          (startPos + (maxChunkSize - overlap)) (chunkIndex + 1) with
      | none => none
      | some rest => some (⟨chunkIndex, chunkText, startPos, endPos⟩ :: rest)
    else
      some []

/-- The chunk list produced by `chunkDocument` on document text `text`
(`manager.js` 610–638): the loop starting at offset 0 and index 0. -/
def chunkDocumentChunks (fuel : Nat) (text : List Char)
    (maxChunkSize overlap : Nat) : Option (List Chunk) :=
  chunkLoop text (maxChunkSize : Int) (overlap : Int) fuel 0 0

/-- The chunk that the specification describes at window number `i` for step
`step = maxChunkSize - overlap`: start offset `i*step`, end offset
`min(start + maxChunkSize, length)`, content the substring `[start, end)`,
index `i`.  Stated from the spec's words, to be compared with the loop. -/
def specChunk (text : List Char) (maxChunkSize step i : Nat) : Chunk :=
  { index := i
    text := (text.drop (i * step)).take (min (i * step + maxChunkSize) text.length - i * step)
    startPos := ((i * step : Nat) : Int)
    endPos := ((min (i * step + maxChunkSize) text.length : Nat) : Int) }

lemma clampIdx_coe (len a : Nat) (ha : a ≤ len) : clampIdx len (a : Int) = a := by
  unfold clampIdx
  omega

lemma jsSubstring_coe (text : List Char) (a b : Nat) (hab : a ≤ b)
    (hb : b ≤ text.length) :
    jsSubstring text (a : Int) (b : Int) = (text.drop a).take (b - a) := by
  unfold jsSubstring
  rw [clampIdx_coe _ _ (le_trans hab hb), clampIdx_coe _ _ hb,
    Nat.min_eq_left hab, Nat.max_eq_right hab]

lemma chunkLoop_window (text : List Char) (m o : Nat) (hov : o < m) :
    ∀ (fuel k : Nat), text.length - k * (m - o) < fuel →
    ∃ L, chunkLoop text (m : Int) (o : Int) fuel ((k * (m - o) : Nat) : Int) k
        = some L ∧
      (∀ j : Nat, j < L.length ↔ (k + j) * (m - o) < text.length) ∧
      (∀ j (hj : j < L.length), L.get ⟨j, hj⟩ = specChunk text m (m - o) (k + j)) := by
  intro fuel
  induction fuel with
  | zero => intro k hk; omega
  | succ fuel ih =>
    intro k hk
    by_cases hlt : k * (m - o) < text.length
    · have hcond : ((k * (m - o) : Nat) : Int) < (text.length : Int) := by
        exact_mod_cast hlt
      have hstep : ((k * (m - o) : Nat) : Int) + ((m : Int) - (o : Int))
          = (((k + 1) * (m - o) : Nat) : Int) := by
        push_cast [Nat.cast_sub (le_of_lt hov)]
        ring
      have hmin : min (((k * (m - o) : Nat) : Int) + (m : Int)) ((text.length : Nat) : Int)
          = ((min (k * (m - o) + m) text.length : Nat) : Int) := by
        push_cast
        omega
      obtain ⟨L', hL', hlen', hget'⟩ := ih (k + 1) (by
        have hs : 1 ≤ m - o := by omega
        omega)
      refine ⟨specChunk text m (m - o) k :: L', ?_, ?_, ?_⟩
      · simp only [chunkLoop, hcond, if_true, if_pos, hmin, hstep, hL']
        have htext : jsSubstring text ((k * (m - o) : Nat) : Int)
            ((min (k * (m - o) + m) text.length : Nat) : Int)
            = (text.drop (k * (m - o))).take
                (min (k * (m - o) + m) text.length - k * (m - o)) := by
          refine jsSubstring_coe text _ _ ?_ ?_
          · omega
          · omega
        rw [htext]
        rfl
      · intro j
        cases j with
        | zero =>
          simpa using hlt
        | succ j =>
          have := hlen' j
          constructor
          · intro hj
            have : (k + 1 + j) * (m - o) < text.length := (hlen' j).mp (by
              simpa using Nat.lt_of_succ_lt_succ hj)
            have he : k + 1 + j = k + (j + 1) := by ring
            rwa [he] at this
          · intro hj
            have he : k + (j + 1) = k + 1 + j := by ring
            rw [he] at hj
            have := (hlen' j).mpr hj
            simpa using Nat.succ_lt_succ this
      · intro j hj
        cases j with
        | zero => rfl
        | succ j =>
          have hj' : j < L'.length := by simpa using Nat.lt_of_succ_lt_succ hj
          have := hget' j hj'
          simpa [Nat.add_assoc, Nat.add_comm 1 j] using this
    · have hcond : ¬(((k * (m - o) : Nat) : Int) < (text.length : Int)) := by
        exact_mod_cast hlt
      refine ⟨[], ?_, ?_, ?_⟩
      · simp only [chunkLoop, hcond, if_false, if_neg, not_false_iff]
      · intro j
        simp only [List.length_nil]
        constructor
        · omega
        · intro hjlt
          exfalso
          have : k * (m - o) ≤ (k + j) * (m - o) := by
            exact Nat.mul_le_mul_right _ (by omega)
          omega
      · intro j hj
        exact absurd hj (by simp)

lemma chunk_list_unique (L L' : List Chunk) (P : Nat → Prop) (f : Nat → Chunk)
    (h1 : ∀ j, j < L.length ↔ P j) (h1' : ∀ j, j < L'.length ↔ P j)
    (h2 : ∀ j (hj : j < L.length), L.get ⟨j, hj⟩ = f j)
    (h2' : ∀ j (hj : j < L'.length), L'.get ⟨j, hj⟩ = f j) : L = L' := by
  have hlen : L.length = L'.length := by
    rcases Nat.lt_trichotomy L.length L'.length with h | h | h
    · exact absurd ((h1 L.length).mpr ((h1' L.length).mp h)) (lt_irrefl _)
    · exact h
    · exact absurd ((h1' L'.length).mpr ((h1 L'.length).mp h)) (lt_irrefl _)
  exact List.ext_get hlen fun i hi hi' => (h2 i hi).trans (h2' i hi').symm

/-- **C1**: for `overlap < maxChunkSize` (and enough fuel), `chunkDocument`
produces exactly the windows whose start offsets are `0, step, 2·step, …`
(`step = maxChunkSize - overlap`) for every start offset strictly below the
text length; each window's end offset is `min(start + maxChunkSize, length)`,
its content is the substring `[start, end)`, and indices are sequential from
0.  Empty text yields the empty chunk list, and the result is independent of
the fuel (deterministic in `(text, maxChunkSize, overlap)` alone). -/
theorem chunkDocument_window_spec (text : List Char) (maxChunkSize overlap fuel : Nat)
    (hov : overlap < maxChunkSize) (hfuel : text.length < fuel) :
    ∃ L, chunkDocumentChunks fuel text maxChunkSize overlap = some L ∧
      (∀ j : Nat, j < L.length ↔ j * (maxChunkSize - overlap) < text.length) ∧
      (∀ j (hj : j < L.length),
        L.get ⟨j, hj⟩ = specChunk text maxChunkSize (maxChunkSize - overlap) j) ∧
      (text = [] → L = []) ∧
      (∀ fuel₂, text.length < fuel₂ →
        chunkDocumentChunks fuel₂ text maxChunkSize overlap = some L) := by
  obtain ⟨L, hL, hlen, hget⟩ :=
    chunkLoop_window text maxChunkSize overlap hov fuel 0 (by omega)
  have hzero : ((0 * (maxChunkSize - overlap) : Nat) : Int) = 0 := by norm_num
  refine ⟨L, ?_, ?_, ?_, ?_, ?_⟩
  · unfold chunkDocumentChunks
    rw [← hzero]
    exact hL
  · intro j
    simpa using hlen j
  · intro j hj
    simpa using hget j hj
  · intro h
    have h0 : L.length = 0 := by
      by_contra hne
      have := (hlen 0).mp (Nat.pos_of_ne_zero hne)
      rw [h] at this
      simp at this
    exact List.eq_nil_of_length_eq_zero h0
  · intro fuel₂ hf₂
    obtain ⟨L₂, hL₂, hlen₂, hget₂⟩ :=
      chunkLoop_window text maxChunkSize overlap hov fuel₂ 0 (by omega)
    have heq : L₂ = L :=
      chunk_list_unique L₂ L
        (fun j => (0 + j) * (maxChunkSize - overlap) < text.length)
        (fun j => specChunk text maxChunkSize (maxChunkSize - overlap) (0 + j))
        hlen₂ hlen hget₂ hget
    unfold chunkDocumentChunks
    rw [← hzero, hL₂, heq]

/-- Witness for C1 at the spec's own scenario: a 14-character text with
`maxChunkSize = 4`, `overlap = 0`. -/
theorem chunkDocument_window_spec_witness :
    ∃ L, chunkDocumentChunks 20 "AAAA BBBB CCCC".toList 4 0 = some L ∧
      (∀ j : Nat, j < L.length ↔ j * (4 - 0) < "AAAA BBBB CCCC".toList.length) ∧
      (∀ j (hj : j < L.length),
        L.get ⟨j, hj⟩ = specChunk "AAAA BBBB CCCC".toList 4 (4 - 0) j) ∧
      ("AAAA BBBB CCCC".toList = [] → L = []) ∧
      (∀ fuel₂, "AAAA BBBB CCCC".toList.length < fuel₂ →
        chunkDocumentChunks fuel₂ "AAAA BBBB CCCC".toList 4 0 = some L) :=
  chunkDocument_window_spec "AAAA BBBB CCCC".toList 4 0 20 (by decide) (by decide)

lemma chunkLoop_stuck (text : List Char) (m o : Int) (hmo : m - o ≤ 0)
    (htext : text ≠ []) :
    ∀ (fuel : Nat) (startPos : Int) (idx : Nat), startPos ≤ 0 →
      chunkLoop text m o fuel startPos idx = none := by
  intro fuel
  induction fuel with
  | zero => intro startPos idx _; rfl
  | succ fuel ih =>
    intro startPos idx hsp
    have hlen : 0 < text.length := List.length_pos.mpr htext
    have hcond : startPos < (text.length : Int) := by
      have h0 : (0 : Int) < (text.length : Int) := by exact_mod_cast hlen
      omega
    simp only [chunkLoop, hcond, if_true, if_pos]
    rw [ih (startPos + (m - o)) (idx + 1) (by omega)]

/-- **C5**: `chunkDocument` has no guard for `overlap ≥ maxChunkSize`.  On the
two-character text "ab" with `maxChunkSize = overlap = 1` the start offset
advances by zero and the loop never terminates: the model returns `none`
(fuel exhausted) for every fuel, instead of the configuration error the
claim requires. -/
theorem chunkDocument_no_guard_diverges :
    ∀ fuel : Nat, chunkDocumentChunks fuel "ab".toList 1 1 = none := by
  intro fuel
  unfold chunkDocumentChunks
  exact chunkLoop_stuck "ab".toList 1 1 (by norm_num) (by decide) fuel 0 0 le_rfl

/-- A row of `rag_entities` (`manager.js` schema): numeric id, unique name,
type label, ordered observation list. -/
structure EntityRow where
  id : Nat
  name : List Char
  entity_type : List Char
  observations : List String
deriving Repr, DecidableEq

/-- A row of `rag_relationships`: directed edge between entity ids with a
relation-type label. -/
structure RelRow where
  source_entity : Nat
  target_entity : Nat
  relation_type : String
deriving Repr, DecidableEq

/-- The entity/relationship portion of the PostgreSQL state. -/
structure GraphStore where
  entities : List EntityRow
  rels : List RelRow
deriving Repr, DecidableEq

/-- Model of `select().eq('name', name).single()`: succeeds exactly when the filter
matches one row. -/
def findSingle (rows : List EntityRow) (name : List Char) : Option EntityRow :=
  match rows.filter (fun e => e.name == name) with
  | [e] => some e
  | _ => none

/-- Model of `delete().or('source_entity.eq.id,target_entity.eq.id')` on
`rag_relationships`: remove every relationship referencing `id`. -/
def cascadeRels (s : GraphStore) (id : Nat) : GraphStore :=
  { s with rels := s.rels.filter (fun r => !(r.source_entity == id || r.target_entity == id)) }

/-- Model of `delete().eq('id', id)` on `rag_entities`: remove the entity row. -/
def removeEntity (s : GraphStore) (id : Nat) : GraphStore :=
  { s with entities := s.entities.filter (fun e2 => !(e2.id == id)) }

/-- One iteration of the `deleteEntities` loop (`manager.js` 339–370): look
the name up; if found, first delete every relationship whose source or target
is the entity's id, then delete the entity row.  Returns the new state, the
intermediate states passed through (in order), and whether the name was
found. -/
def deleteEntityOne (s : GraphStore) (name : List Char) :
    GraphStore × List GraphStore × Bool :=
  match findSingle s.entities name with
  | none => (s, [], false)
  | some e =>
    (removeEntity (cascadeRels s e.id) e.id,
      [cascadeRels s e.id, removeEntity (cascadeRels s e.id) e.id], true)

/-- Result of a `deleteEntities` call: final state, every intermediate state
in execution order, and the reported `deleted`/`notFound` name lists. -/
structure DeleteEntitiesRun where
  final : GraphStore
  trace : List GraphStore
  deleted : List (List Char)
  notFound : List (List Char)
deriving Repr

/-- Model of `deleteEntities(entityNames)` (`manager.js` 336–373), names processed in
order. -/
def deleteEntities (s : GraphStore) : List (List Char) → DeleteEntitiesRun
  | [] => ⟨s, [], [], []⟩
  | name :: rest =>
    let step := deleteEntityOne s name
    let r := deleteEntities step.1 rest
    { final := r.final
      trace := step.2.1 ++ r.trace
      deleted := if step.2.2 then name :: r.deleted else r.deleted
      notFound := if step.2.2 then r.notFound else name :: r.notFound }

/-- Referential integrity: every relationship's endpoints exist as entity
rows (the "no orphan relationship" invariant of the spec). -/
def wellFormed (s : GraphStore) : Prop :=
  ∀ r ∈ s.rels,
    (∃ e ∈ s.entities, e.id = r.source_entity) ∧
    (∃ e ∈ s.entities, e.id = r.target_entity)

lemma findSingle_mem {rows : List EntityRow} {name : List Char} {e : EntityRow}
    (h : findSingle rows name = some e) : e ∈ rows ∧ e.name = name := by
  unfold findSingle at h
  split at h
  · next e' heq =>
    have he : e' = e := Option.some.inj h
    have hmem : e ∈ rows.filter (fun x => x.name == name) := by
      rw [heq, he]
      exact List.mem_singleton_self e
    have hm := List.mem_filter.mp hmem
    exact ⟨hm.1, by simpa using hm.2⟩
  · exact absurd h (by simp)

lemma deleteEntityOne_entities_sub (s : GraphStore) (name : List Char) :
    (deleteEntityOne s name).1.entities ⊆ s.entities := by
  unfold deleteEntityOne
  split
  · exact fun _ h => h
  · exact fun _ h => (List.mem_filter.mp h).1

lemma deleteEntityOne_rels_sub (s : GraphStore) (name : List Char) :
    (deleteEntityOne s name).1.rels ⊆ s.rels := by
  unfold deleteEntityOne
  split
  · exact fun _ h => h
  · exact fun _ h => (List.mem_filter.mp h).1

lemma deleteEntities_entities_sub (names : List (List Char)) :
    ∀ s : GraphStore, (deleteEntities s names).final.entities ⊆ s.entities := by
  induction names with
  | nil => intro s; exact fun _ h => h
  | cons name rest ih =>
    intro s
    exact fun x hx => deleteEntityOne_entities_sub s name (ih _ hx)

lemma deleteEntities_rels_sub (names : List (List Char)) :
    ∀ s : GraphStore, (deleteEntities s names).final.rels ⊆ s.rels := by
  induction names with
  | nil => intro s; exact fun _ h => h
  | cons name rest ih =>
    intro s
    exact fun x hx => deleteEntityOne_rels_sub s name (ih _ hx)

lemma mem_cascadeRels {s : GraphStore} {id : Nat} {r : RelRow} :
    r ∈ (cascadeRels s id).rels ↔
      r ∈ s.rels ∧ r.source_entity ≠ id ∧ r.target_entity ≠ id := by
  simp [cascadeRels, List.mem_filter]

lemma mem_removeEntity {s : GraphStore} {id : Nat} {e : EntityRow} :
    e ∈ (removeEntity s id).entities ↔ e ∈ s.entities ∧ e.id ≠ id := by
  simp [removeEntity, List.mem_filter]

lemma cascadeRels_wf {s : GraphStore} {id : Nat} (hwf : wellFormed s) :
    wellFormed (cascadeRels s id) := by
  intro r hr
  exact hwf r (mem_cascadeRels.mp hr).1

lemma removeEntity_cascade_wf {s : GraphStore} {id : Nat} (hwf : wellFormed s) :
    wellFormed (removeEntity (cascadeRels s id) id) := by
  intro r hr
  have hr' : r ∈ (cascadeRels s id).rels := hr
  obtain ⟨hrs, hns, hnt⟩ := mem_cascadeRels.mp hr'
  obtain ⟨⟨es, hes, hesid⟩, ⟨et, het, hetid⟩⟩ := hwf r hrs
  constructor
  · exact ⟨es, mem_removeEntity.mpr ⟨hes, by rw [hesid]; exact hns⟩, hesid⟩
  · exact ⟨et, mem_removeEntity.mpr ⟨het, by rw [hetid]; exact hnt⟩, hetid⟩

lemma deleteEntities_wf (names : List (List Char)) :
    ∀ s : GraphStore, wellFormed s →
      wellFormed (deleteEntities s names).final ∧
      ∀ t ∈ (deleteEntities s names).trace, wellFormed t := by
  induction names with
  | nil => intro s h; exact ⟨h, by simp [deleteEntities]⟩
  | cons name rest ih =>
    intro s h
    cases hfind : findSingle s.entities name with
    | none =>
      have hstep : deleteEntityOne s name = (s, [], false) := by
        unfold deleteEntityOne; rw [hfind]
      obtain ⟨ihf, iht⟩ := ih s h
      constructor
      · simpa [deleteEntities, hstep] using ihf
      · intro t ht
        simp only [deleteEntities, hstep, List.nil_append] at ht
        exact iht t ht
    | some e =>
      have hstep : deleteEntityOne s name =
          (removeEntity (cascadeRels s e.id) e.id,
            [cascadeRels s e.id, removeEntity (cascadeRels s e.id) e.id],
            true) := by
        unfold deleteEntityOne; rw [hfind]
      have h1 : wellFormed (cascadeRels s e.id) := cascadeRels_wf h
      have h2 : wellFormed (removeEntity (cascadeRels s e.id) e.id) :=
        removeEntity_cascade_wf h
      obtain ⟨ihf, iht⟩ := ih (removeEntity (cascadeRels s e.id) e.id) h2
      constructor
      · simpa [deleteEntities, hstep] using ihf
      · intro t ht
        simp only [deleteEntities, hstep, List.cons_append, List.nil_append,
          List.mem_cons] at ht
        rcases ht with rfl | rfl | ht
        · exact h1
        · exact h2
        · exact iht t ht

lemma deleteEntities_deleted_spec (names : List (List Char)) :
    ∀ s : GraphStore, ∀ name ∈ (deleteEntities s names).deleted,
      ∃ id : Nat,
        (∃ e ∈ s.entities, e.name = name ∧ e.id = id) ∧
        (∀ r ∈ (deleteEntities s names).final.rels,
          r.source_entity ≠ id ∧ r.target_entity ≠ id) ∧
        (∀ e2 ∈ (deleteEntities s names).final.entities, e2.id ≠ id) := by
  induction names with
  | nil => intro s name h; simp [deleteEntities] at h
  | cons nm rest ih =>
    intro s name h
    cases hfind : findSingle s.entities nm with
    | none =>
      have hstep : deleteEntityOne s nm = (s, [], false) := by
        unfold deleteEntityOne; rw [hfind]
      simp only [deleteEntities, hstep, if_neg, Bool.false_eq_true,
        not_false_iff, if_false] at h ⊢
      exact ih s name h
    | some e =>
      have hstep : deleteEntityOne s nm =
          (removeEntity (cascadeRels s e.id) e.id,
            [cascadeRels s e.id, removeEntity (cascadeRels s e.id) e.id],
            true) := by
        unfold deleteEntityOne; rw [hfind]
      simp only [deleteEntities, hstep, if_true, List.mem_cons] at h ⊢
      rcases h with rfl | hmem
      · refine ⟨e.id, ?_, ?_, ?_⟩
        · obtain ⟨hmem', hname⟩ := findSingle_mem hfind
          exact ⟨e, hmem', hname, rfl⟩
        · intro r hr
          have hsub := deleteEntities_rels_sub rest
            (removeEntity (cascadeRels s e.id) e.id) hr
          have hr' : r ∈ (cascadeRels s e.id).rels := hsub
          exact (mem_cascadeRels.mp hr').2
        · intro e2 he2
          have hsub := deleteEntities_entities_sub rest
            (removeEntity (cascadeRels s e.id) e.id) he2
          exact (mem_removeEntity.mp hsub).2
      · obtain ⟨id, ⟨e', he', hn, hid⟩, hrels, hents⟩ := ih _ name hmem
        refine ⟨id, ⟨e', ?_, hn, hid⟩, hrels, hents⟩
        exact (mem_removeEntity.mp he').1

/-- **C2**: on a well-formed store, `deleteEntities` never passes through a
state with an orphan relationship (relationship rows referencing an entity
are always deleted strictly before the entity row), and for every name in the
reported `deleted` list the named entity's id is referenced by no remaining
relationship — as source or as target — in the final state, and the entity
row itself is gone. -/
theorem deleteEntities_cascade (s : GraphStore) (names : List (List Char))
    (hwf : wellFormed s) :
    (∀ t ∈ (deleteEntities s names).trace, wellFormed t) ∧
    (∀ name ∈ (deleteEntities s names).deleted, ∃ id : Nat,
      (∃ e ∈ s.entities, e.name = name ∧ e.id = id) ∧
      (∀ r ∈ (deleteEntities s names).final.rels,
        r.source_entity ≠ id ∧ r.target_entity ≠ id) ∧
      (∀ e2 ∈ (deleteEntities s names).final.entities, e2.id ≠ id)) :=
  ⟨(deleteEntities_wf names s hwf).2, deleteEntities_deleted_spec names s⟩

/-- The spec's scenario store: React --BUILT_WITH--> JavaScript. -/
def graphStoreExample : GraphStore :=
  { entities :=
      [⟨1, "React".toList, "TECHNOLOGY".toList, []⟩,
        ⟨2, "JavaScript".toList, "TECHNOLOGY".toList, []⟩]
    rels := [⟨1, 2, "BUILT_WITH"⟩] }

/-- Witness for C2: deleting "React" from the scenario store. -/
theorem deleteEntities_cascade_witness :
    (∀ t ∈ (deleteEntities graphStoreExample ["React".toList]).trace,
      wellFormed t) ∧
    (∀ name ∈ (deleteEntities graphStoreExample ["React".toList]).deleted,
      ∃ id : Nat,
        (∃ e ∈ graphStoreExample.entities, e.name = name ∧ e.id = id) ∧
        (∀ r ∈ (deleteEntities graphStoreExample ["React".toList]).final.rels,
          r.source_entity ≠ id ∧ r.target_entity ≠ id) ∧
        (∀ e2 ∈ (deleteEntities graphStoreExample ["React".toList]).final.entities,
          e2.id ≠ id)) :=
  deleteEntities_cascade graphStoreExample ["React".toList]
    (by unfold wellFormed; decide)

/-- One item of a `deleteObservations` call: the entity name and the exact
observation strings to delete. -/
structure DeletionSpec where
  entityName : List Char
  observations : List String
deriving Repr, DecidableEq

/-- One entry of the reported `deleted` list of `deleteObservations`. -/
structure ObsDeleted where
  entity : List Char
  removedCount : Nat
deriving Repr, DecidableEq

/-- Result of a `deleteObservations` call. -/
structure DeleteObsRun where
  final : GraphStore
  deleted : List ObsDeleted
  notFound : List (List Char)
deriving Repr

/-- Model of `update({ observations }).eq('id', id)` on `rag_entities`. -/
def setObservations (s : GraphStore) (id : Nat) (obs : List String) : GraphStore :=
  let newEntities := s.entities.map fun e2 =>
    if e2.id == id then { e2 with observations := obs } else e2
  { s with entities := newEntities }

/-- Model of `deleteObservations(deletions)` (`manager.js` 429–469): per item, fetch
the entity's current observation list, filter out the exact strings listed in
the deletion, write the filtered list back, and report
`removedCount = before - after`. -/
def deleteObservations (s : GraphStore) : List DeletionSpec → DeleteObsRun
  | [] => ⟨s, [], []⟩
  | d :: rest =>
    match findSingle s.entities d.entityName with
    | none =>
      let r := deleteObservations s rest
      ⟨r.final, r.deleted, d.entityName :: r.notFound⟩
    | some e =>
      let currentObs := e.observations
      let updatedObs := currentObs.filter (fun o => !(d.observations.contains o))
      let r := deleteObservations (setObservations s e.id updatedObs) rest
      ⟨r.final, ⟨d.entityName, currentObs.length - updatedObs.length⟩ :: r.deleted,
        r.notFound⟩

/-- **C8**: for an existing entity, `deleteObservations` replaces the
observation list by exactly the prior observations that are not
string-equal to any string of the deletion list: the new list is a sublist of
the old (nothing reordered or altered), no survivor equals a deleted string,
every prior observation not listed survives, all other entity rows are
untouched, and the reported `removedCount` is the before-count minus the
after-count. -/
theorem deleteObservations_exact (s : GraphStore) (d : DeletionSpec)
    (e : EntityRow) (h : findSingle s.entities d.entityName = some e) :
    (∀ e2 ∈ (deleteObservations s [d]).final.entities, e2.id = e.id →
      e2.observations = e.observations.filter (fun o => !(d.observations.contains o))) ∧
    (∀ e2 ∈ (deleteObservations s [d]).final.entities, e2.id ≠ e.id → e2 ∈ s.entities) ∧
    (∀ o ∈ e.observations.filter (fun o => !(d.observations.contains o)),
      o ∉ d.observations) ∧
    (∀ o ∈ e.observations, o ∉ d.observations →
      o ∈ e.observations.filter (fun o => !(d.observations.contains o))) ∧
    (e.observations.filter (fun o => !(d.observations.contains o))).Sublist
      e.observations ∧
    (deleteObservations s [d]).deleted =
      [⟨d.entityName, e.observations.length -
        (e.observations.filter (fun o => !(d.observations.contains o))).length⟩] := by
  have hrun : deleteObservations s [d] =
      ⟨setObservations s e.id
          (e.observations.filter (fun o => !(d.observations.contains o))),
        [⟨d.entityName, e.observations.length -
          (e.observations.filter (fun o => !(d.observations.contains o))).length⟩],
        []⟩ := by
    unfold deleteObservations
    rw [h]
    rfl
  refine ⟨?_, ?_, ?_, ?_, List.filter_sublist _, by rw [hrun]⟩
  · intro e2 he2 hid
    rw [hrun] at he2
    simp only [setObservations, List.mem_map] at he2
    obtain ⟨e0, he0, heq⟩ := he2
    by_cases h0 : e0.id = e.id
    · rw [← heq]
      simp [h0]
    · exfalso
      rw [← heq] at hid
      simp [h0] at hid
  · intro e2 he2 hid
    rw [hrun] at he2
    simp only [setObservations, List.mem_map] at he2
    obtain ⟨e0, he0, heq⟩ := he2
    by_cases h0 : e0.id = e.id
    · exfalso
      rw [← heq] at hid
      simp [h0] at hid
    · rw [← heq]
      simpa [h0] using he0
  · intro o ho
    have := (List.mem_filter.mp ho).2
    simpa using this
  · intro o ho hno
    refine List.mem_filter.mpr ⟨ho, ?_⟩
    simpa using hno

/-- A store used to instantiate the observation-deletion theorem. -/
def obsStoreExample : GraphStore :=
  { entities := [⟨1, "React".toList, "TECH".toList, ["a", "b", "c"]⟩]
    rels := [] }

/-- Witness for C8: deleting observations `["b", "x"]` from the entity
"React" holding `["a", "b", "c"]`. -/
theorem deleteObservations_exact_witness :
    (∀ e2 ∈ (deleteObservations obsStoreExample
        [⟨"React".toList, ["b", "x"]⟩]).final.entities,
      e2.id = (⟨1, "React".toList, "TECH".toList, ["a", "b", "c"]⟩ : EntityRow).id →
      e2.observations = (["a", "b", "c"] : List String).filter
        (fun o => !((["b", "x"] : List String).contains o))) ∧
    (∀ e2 ∈ (deleteObservations obsStoreExample
        [⟨"React".toList, ["b", "x"]⟩]).final.entities,
      e2.id ≠ (⟨1, "React".toList, "TECH".toList, ["a", "b", "c"]⟩ : EntityRow).id →
      e2 ∈ obsStoreExample.entities) ∧
    (∀ o ∈ (["a", "b", "c"] : List String).filter
        (fun o => !((["b", "x"] : List String).contains o)),
      o ∉ (["b", "x"] : List String)) ∧
    (∀ o ∈ (["a", "b", "c"] : List String), o ∉ (["b", "x"] : List String) →
      o ∈ (["a", "b", "c"] : List String).filter
        (fun o => !((["b", "x"] : List String).contains o))) ∧
    ((["a", "b", "c"] : List String).filter
        (fun o => !((["b", "x"] : List String).contains o))).Sublist
      (["a", "b", "c"] : List String) ∧
    (deleteObservations obsStoreExample [⟨"React".toList, ["b", "x"]⟩]).deleted =
      [⟨"React".toList, (["a", "b", "c"] : List String).length -
        ((["a", "b", "c"] : List String).filter
          (fun o => !((["b", "x"] : List String).contains o))).length⟩] :=
  deleteObservations_exact obsStoreExample ⟨"React".toList, ["b", "x"]⟩
    ⟨1, "React".toList, "TECH".toList, ["a", "b", "c"]⟩ (by decide)

/-- A row of `rag_documents`: caller-supplied string id (primary key) and raw
text content. -/
structure DocRow where
  id : String
  content : List Char
deriving Repr, DecidableEq

/-- A row of `rag_chunks`; `α` is the scalar type of embedding vectors, which
the manager never inspects.  `embedding` is the nullable vector column. -/
structure ChunkRow (α : Type) where
  document_id : String
  chunk_index : Nat
  content : List Char
  start_pos : Int
  end_pos : Int
  embedding : Option (List α)
deriving Repr, DecidableEq

/-- The document portion of the PostgreSQL state. -/
structure DocStore (α : Type) where
  documents : List DocRow
  chunks : List (ChunkRow α)
deriving Repr, DecidableEq

/-- Model of `upsert({ id, content })` on `rag_documents` (`storeDocument`,
`manager.js` 481–490): replace the row with this primary key, or insert. -/
def storeDocument {α : Type} (s : DocStore α) (id : String) (content : List Char) :
    DocStore α :=
  if s.documents.any (fun d => d.id == id) then
    { s with documents := s.documents.map (fun d => if d.id == id then ⟨id, content⟩ else d) }
  else
    { s with documents := s.documents ++ [⟨id, content⟩] }

/-- Model of `select('content').eq('id', documentId).single()` on `rag_documents`. -/
def findDocSingle (docs : List DocRow) (id : String) : Option DocRow :=
  match docs.filter (fun d => d.id == id) with
  | [d] => some d
  | _ => none

/-- Model of `chunkDocument(documentId, options)` as a storage operation
(`manager.js` 595–639): fetch the document (`NotFound` throws), run the
chunking loop, insert one `rag_chunks` row per chunk (embedding column null).
`none` = the loop ran out of fuel, `Except.error` = thrown error. -/
def chunkDocumentOp {α : Type} (fuel : Nat) (s : DocStore α) (documentId : String)
    (maxChunkSize overlap : Nat) : Option (Except String (List Chunk × DocStore α)) :=
  match findDocSingle s.documents documentId with
  | none => some (Except.error ("Document " ++ documentId ++ " not found"))
  | some doc =>
    match chunkDocumentChunks fuel doc.content maxChunkSize overlap with
    | none => none
    | some L =>
      some (Except.ok (L, { s with chunks := s.chunks ++ L.map (fun c => (⟨documentId, c.index, c.text, c.startPos, c.endPos, none⟩ : ChunkRow α)) }))

/-- Model of `embedChunks(documentId)` (`manager.js` 647–682): throws when the model
is uninitialized or when the document has no chunks; otherwise, for every
chunk of the document, writes `generateEmbedding(content)` — null included —
into the embedding column and counts the chunk as embedded (in the model the
per-chunk update cannot fail, and the JS counter does not inspect the value,
so every chunk is counted).  Returns (embeddedChunks, totalChunks, state). -/
def embedChunks {α : Type} (modelInit : Bool) (embedFn : List Char → Option (List α))
    (s : DocStore α) (documentId : String) : Except String (Nat × Nat × DocStore α) :=
  if !modelInit then Except.error "Embedding model not initialized"
  else if (s.chunks.filter (fun c => c.document_id == documentId)).isEmpty then
    Except.error ("No chunks found for document " ++ documentId)
  else
    Except.ok ((s.chunks.filter (fun c => c.document_id == documentId)).length,
      (s.chunks.filter (fun c => c.document_id == documentId)).length,
      { s with chunks := s.chunks.map (fun c => if c.document_id == documentId then { c with embedding := embedFn c.content } else c) })

/-- The fields of the `processDocument` result that the claims mention.
`none` in a field = the JS result object never had it set. -/
structure ProcessResult where
  success : Bool
  chunksCreated : Option Nat
  embeddedChunks : Option Nat
deriving Repr, DecidableEq

/-- Model of `processDocument(id, content, options)` (`manager.js` 500–533): store →
chunk → embed in strict sequence; an exception in a step is caught, flips
`success` to false and stops; when the model is uninitialized the embed step
is skipped with `embeddedChunks = 0`. -/
def processDocument {α : Type} (fuel : Nat) (modelInit : Bool)
    (embedFn : List Char → Option (List α)) (s : DocStore α) (id : String)
    (content : List Char) (maxChunkSize overlap : Nat) :
    Option (ProcessResult × DocStore α) :=
  match chunkDocumentOp fuel (storeDocument s id content) id maxChunkSize overlap with
  | none => none
  | some (Except.error _) => some (⟨false, none, none⟩, storeDocument s id content)
  | some (Except.ok (L, s2)) =>
    if modelInit then
      match embedChunks modelInit embedFn s2 id with
      | Except.error _ => some (⟨false, some L.length, none⟩, s2)
      | Except.ok (embedded, _total, s3) =>
        some (⟨true, some L.length, some embedded⟩, s3)
    else
      some (⟨true, some L.length, some 0⟩, s2)

lemma storeDocument_chunks {α : Type} (s : DocStore α) (id : String)
    (content : List Char) : (storeDocument s id content).chunks = s.chunks := by
  unfold storeDocument
  split <;> rfl

lemma filter_map_replace (l : List DocRow) (id : String) (content : List Char) :
    (l.map (fun d => if d.id == id then (⟨id, content⟩ : DocRow) else d)).filter
        (fun d => d.id == id)
      = (l.filter (fun d => d.id == id)).map (fun _ => (⟨id, content⟩ : DocRow)) := by
  rw [List.filter_map]
  have hpf : l.filter ((fun d => d.id == id) ∘
        (fun d => if d.id == id then (⟨id, content⟩ : DocRow) else d))
      = l.filter (fun d => d.id == id) := by
    refine List.filter_congr ?_
    intro d _
    by_cases h : d.id = id
    · simp [h]
    · simp [h]
  rw [hpf]
  refine List.map_congr_left ?_
  intro d hd
  have hdid := (List.mem_filter.mp hd).2
  simp only [beq_iff_eq] at hdid
  simp [hdid]

lemma findDoc_after_store {α : Type} (s : DocStore α) (id : String)
    (content : List Char)
    (hpk : (s.documents.filter (fun d => d.id == id)).length ≤ 1) :
    findDocSingle (storeDocument s id content).documents id = some ⟨id, content⟩ := by
  by_cases hany : s.documents.any (fun d => d.id == id) = true
  · have hdocs : (storeDocument s id content).documents
        = s.documents.map (fun d => if d.id == id then ⟨id, content⟩ else d) := by
      unfold storeDocument
      rw [if_pos hany]
    obtain ⟨d0, hd0, hp⟩ := List.any_eq_true.mp hany
    have hne : s.documents.filter (fun d => d.id == id) ≠ [] := by
      intro hnil
      have hm : d0 ∈ s.documents.filter (fun d => d.id == id) :=
        List.mem_filter.mpr ⟨hd0, hp⟩
      rw [hnil] at hm
      exact absurd hm (List.not_mem_nil d0)
    have hlen1 : (s.documents.filter (fun d => d.id == id)).length = 1 := by
      have := List.length_pos.mpr hne
      omega
    obtain ⟨a, ha⟩ := List.length_eq_one.mp hlen1
    unfold findDocSingle
    rw [hdocs, filter_map_replace, ha]
    rfl
  · have hdocs : (storeDocument s id content).documents
        = s.documents ++ [⟨id, content⟩] := by
      unfold storeDocument
      rw [if_neg hany]
    have hfe : s.documents.filter (fun d => d.id == id) = [] := by
      refine List.filter_eq_nil_iff.mpr ?_
      intro d hd hp
      exact hany (List.any_eq_true.mpr ⟨d, hd, hp⟩)
    unfold findDocSingle
    rw [hdocs, List.filter_append, hfe, List.nil_append]
    simp

/-- **C3 counterexample**: with the embedding provider returning null on
every call, `processDocument` on the short document "hello world" (one chunk)
reports `embeddedChunks = 1`, not 0 — the per-chunk update writes the null
and is still counted as an embedded chunk. -/
theorem processDocument_null_embedding_counterexample :
    (processDocument (α := Int) 100 true (fun _ => none) ⟨[], []⟩ "doc1"
        "hello world".toList 500 50).map
      (fun p => (p.1.success, p.1.chunksCreated, p.1.embeddedChunks))
      = some (true, some 1, some 1) := by decide

/-- **C3 amended**: with a configured provider returning null on every call,
`processDocument` still reports `success = true` and `chunksCreated > 0`, no
chunk of the document ends up with a non-null embedding, but the reported
`embeddedChunks` equals `chunksCreated` (every chunk's update is attempted,
writes the null, and is counted), not 0. -/
theorem processDocument_null_embedding_amended {α : Type} (s : DocStore α)
    (id : String) (content : List Char) (maxChunkSize overlap fuel : Nat)
    (hov : overlap < maxChunkSize) (hfuel : content.length < fuel)
    (hcontent : content ≠ [])
    (hpk : (s.documents.filter (fun d => d.id == id)).length ≤ 1)
    (hnochunks : s.chunks.filter (fun c => c.document_id == id) = []) :
    ∃ (n : Nat) (p : ProcessResult × DocStore α),
      processDocument fuel true (fun _ => (none : Option (List α))) s id content
          maxChunkSize overlap = some p ∧
      0 < n ∧
      p.1 = ⟨true, some n, some n⟩ ∧
      ∀ c ∈ p.2.chunks, c.document_id = id → c.embedding = none := by
  obtain ⟨L, hL, hlen, hget⟩ :=
    chunkLoop_window content maxChunkSize overlap hov fuel 0 (by omega)
  have hzero : ((0 * (maxChunkSize - overlap) : Nat) : Int) = 0 := by norm_num
  have hchunks : chunkDocumentChunks fuel content maxChunkSize overlap = some L := by
    unfold chunkDocumentChunks
    rw [← hzero]
    exact hL
  have hn : 0 < L.length := by
    refine (hlen 0).mpr ?_
    have h0 : 0 < content.length := List.length_pos.mpr hcontent
    simpa using h0
  have hfind : findDocSingle (storeDocument s id content).documents id
      = some ⟨id, content⟩ := findDoc_after_store s id content hpk
  have hop : chunkDocumentOp fuel (storeDocument s id content) id maxChunkSize overlap
      = some (Except.ok (L, { storeDocument s id content with
          chunks := (storeDocument s id content).chunks
            ++ L.map (fun c => (⟨id, c.index, c.text, c.startPos, c.endPos, none⟩ : ChunkRow α)) })) := by
    unfold chunkDocumentOp
    rw [hfind]
    show (match chunkDocumentChunks fuel content maxChunkSize overlap with
      | none => none
      | some L => some (Except.ok (L, _))) = _
    rw [hchunks]
  have hs1chunks : (storeDocument s id content).chunks = s.chunks :=
    storeDocument_chunks s id content
  have hfilter2 : ((storeDocument s id content).chunks
        ++ L.map (fun c => (⟨id, c.index, c.text, c.startPos, c.endPos, none⟩ : ChunkRow α))).filter
        (fun c => c.document_id == id)
      = L.map (fun c => (⟨id, c.index, c.text, c.startPos, c.endPos, none⟩ : ChunkRow α)) := by
    rw [List.filter_append, hs1chunks, hnochunks, List.nil_append]
    refine List.filter_eq_self.mpr ?_
    intro c hc
    obtain ⟨c0, _, rfl⟩ := List.mem_map.mp hc
    simp
  have hrun : processDocument fuel true (fun _ => (none : Option (List α))) s id
      content maxChunkSize overlap
      = some (⟨true, some L.length, some L.length⟩,
          { documents := (storeDocument s id content).documents,
            chunks := ((storeDocument s id content).chunks
                ++ L.map (fun c => (⟨id, c.index, c.text, c.startPos, c.endPos, none⟩ : ChunkRow α))).map
              (fun c => if c.document_id == id then { c with embedding := none } else c) }) := by
    unfold processDocument
    rw [hop]
    show (if true then _ else _) = _
    rw [if_pos rfl]
    unfold embedChunks
    rw [show (!true) = false from rfl]
    rw [if_neg (by simp)]
    rw [hfilter2]
    have hLne : L ≠ [] := by
      intro hnil
      rw [hnil] at hn
      simp at hn
    have hemp : ¬((L.map (fun c => (⟨id, c.index, c.text, c.startPos, c.endPos, none⟩ : ChunkRow α))).isEmpty = true) := by
      cases L with
      | nil => exact absurd rfl hLne
      | cons a t => simp
    rw [if_neg hemp, List.length_map]
  refine ⟨L.length, _, hrun, hn, rfl, ?_⟩
  intro c hc
  simp only [List.mem_map] at hc
  rcases hc with ⟨c0, hc0, rfl⟩
  intro hcid
  by_cases hdoc : c0.document_id = id
  · simp [hdoc]
  · exfalso
    rw [if_neg (by simpa using hdoc)] at hcid
    exact hdoc hcid

/-- Witness for the amended C3 at the counterexample's concrete input. -/
theorem processDocument_null_embedding_amended_witness :
    ∃ (n : Nat) (p : ProcessResult × DocStore Int),
      processDocument 100 true (fun _ => (none : Option (List Int))) ⟨[], []⟩
          "doc1" "hello world".toList 500 50 = some p ∧
      0 < n ∧
      p.1 = ⟨true, some n, some n⟩ ∧
      ∀ c ∈ p.2.chunks, c.document_id = "doc1" → c.embedding = none :=
  processDocument_null_embedding_amended ⟨[], []⟩ "doc1" "hello world".toList
    500 50 100 (by decide) (by decide) (by decide) (by decide) (by decide)

/-- Result of a `deleteDocuments` call. -/
structure DeleteDocsRun (α : Type) where
  final : DocStore α
  deleted : List String
  notFound : List String
deriving Repr

/-- Model of `deleteDocuments(documentIds)` (`manager.js` 559–584): per id, delete the
document's chunk rows, then the document row.  The storage layer reports no
error when the filters match nothing, so every id is pushed onto `deleted`
and the initialized `notFound` list is never populated. -/
def deleteDocuments {α : Type} (s : DocStore α) : List String → DeleteDocsRun α
  | [] => ⟨s, [], []⟩
  | docId :: rest =>
    let s2 : DocStore α :=
      { documents := s.documents.filter (fun d => !(d.id == docId))
        chunks := s.chunks.filter (fun c => !(c.document_id == docId)) }
    let r := deleteDocuments s2 rest
    ⟨r.final, docId :: r.deleted, r.notFound⟩

lemma deleteDocuments_docs_sub {α : Type} (ids : List String) :
    ∀ s : DocStore α, (deleteDocuments s ids).final.documents ⊆ s.documents := by
  induction ids with
  | nil => intro s; exact fun _ h => h
  | cons docId rest ih =>
    intro s x hx
    have hx' := ih _ hx
    exact (List.mem_filter.mp hx').1

lemma deleteDocuments_chunks_sub {α : Type} (ids : List String) :
    ∀ s : DocStore α, (deleteDocuments s ids).final.chunks ⊆ s.chunks := by
  induction ids with
  | nil => intro s; exact fun _ h => h
  | cons docId rest ih =>
    intro s x hx
    have hx' := ih _ hx
    exact (List.mem_filter.mp hx').1

/-- **C10 counterexample**: deleting the id "missing" from an empty store
reports it in `deleted`, and `notFound` stays empty — the id does not appear
in the `notFound` list as the claim requires. -/
theorem deleteDocuments_missing_id_counterexample :
    (deleteDocuments (⟨[], []⟩ : DocStore Int) ["missing"]).notFound = [] ∧
    (deleteDocuments (⟨[], []⟩ : DocStore Int) ["missing"]).deleted = ["missing"] :=
  ⟨rfl, rfl⟩

/-- **C10 amended**: `deleteDocuments` reports every requested id — existing
or not — in the `deleted` list, reports `notFound = []` always (existence is
never checked; deleting zero rows is not an error), and afterwards no
document row or chunk row with a requested id remains. -/
theorem deleteDocuments_reports_all_deleted {α : Type} (s : DocStore α)
    (ids : List String) :
    (deleteDocuments s ids).deleted = ids ∧
    (deleteDocuments s ids).notFound = [] ∧
    ∀ id ∈ ids,
      (∀ d ∈ (deleteDocuments s ids).final.documents, d.id ≠ id) ∧
      (∀ c ∈ (deleteDocuments s ids).final.chunks, c.document_id ≠ id) := by
  induction ids generalizing s with
  | nil => exact ⟨rfl, rfl, by simp⟩
  | cons docId rest ih =>
    obtain ⟨ihdel, ihnf, ihall⟩ := ih
      (⟨s.documents.filter (fun d => !(d.id == docId)),
        s.chunks.filter (fun c => !(c.document_id == docId))⟩ : DocStore α)
    refine ⟨?_, ?_, ?_⟩
    · show docId :: _ = docId :: rest
      rw [ihdel]
    · exact ihnf
    · intro id hid
      rcases List.mem_cons.mp hid with rfl | hmem
      · constructor
        · intro d hd
          have hsub := deleteDocuments_docs_sub rest _ hd
          have := List.mem_filter.mp hsub
          simpa using this.2
        · intro c hc
          have hsub := deleteDocuments_chunks_sub rest _ hc
          have := List.mem_filter.mp hsub
          simpa using this.2
      · exact ihall id hmem

/-- Accumulator pass of splitting on whitespace runs (JS `split(/\s+/)`):
maximal runs of non-whitespace characters, in order.  (JS also yields one
empty token when the string starts with whitespace; empty tokens are
discarded by the `length >= 3` filter either way, so they are dropped
here.) -/
def splitWsAux : List Char → List Char → List (List Char)
  | [], acc => if acc.isEmpty then [] else [acc.reverse]
  | c :: cs, acc =>
    if c.isWhitespace then
      if acc.isEmpty then splitWsAux cs [] else acc.reverse :: splitWsAux cs []
    else splitWsAux cs (c :: acc)

/-- Model of `query.split(/\s+/)` on a whitespace-separated character list. -/
def splitWs (l : List Char) : List (List Char) := splitWsAux l []

/-- Keyword extraction of `hybridSearch`/`getDetailedContext`
(`manager.js` 752–756): lowercase, split on whitespace, keep tokens of
length ≥ 3, cap at 5. -/
def extractKeywords (query : List Char) : List (List Char) :=
  ((splitWs (query.map Char.toLower)).filter (fun w => 3 ≤ w.length)).take 5

/-- JS `String.prototype.includes`: the needle occurs as a contiguous
substring (the empty needle always occurs). -/
def containsSub (haystack needle : List Char) : Bool :=
  match haystack with
  | [] => needle.isEmpty
  | _ :: t => needle.isPrefixOf haystack || containsSub t needle

/-- Model of `doc.content.toLowerCase().includes(kw)` — also the model of the
case-insensitive `ilike '%kw%'` filter (the keyword is already
lowercase). -/
def containsKw (content kw : List Char) : Bool :=
  containsSub (content.map Char.toLower) kw

/-- Model of `keywords.filter(kw => contentLower.includes(kw)).length`
(`manager.js` 777–781). -/
def matchCount (keywords : List (List Char)) (content : List Char) : Nat :=
  (keywords.filter (fun kw => containsKw content kw)).length

/-- Insert into a descending-sorted list, after every element of greater or
equal count: with `sortByCountDesc` this realizes the stable ECMAScript
`Array.prototype.sort` under the comparator `(a, b) => b.count - a.count`. -/
def insertDesc {β : Type} (x : β × Nat) : List (β × Nat) → List (β × Nat)
  | [] => [x]
  | y :: ys => if x.2 < y.2 then y :: insertDesc x ys else x :: y :: ys

/-- Stable sort, descending by the second (count) component — the model of
`ranked.sort((a, b) => b._matchCount - a._matchCount)` (`manager.js` 784). -/
def sortByCountDesc {β : Type} : List (β × Nat) → List (β × Nat)
  | [] => []
  | x :: xs => insertDesc x (sortByCountDesc xs)

/-- Concatenation of the count-buckets `cs` of `l`, each bucket in the
original order of `l` — the specification's description of a stable
descending sort when `cs` enumerates the possible counts in decreasing
order. -/
def bucketsFrom {β : Type} : List Nat → List (β × Nat) → List (β × Nat)
  | [], _ => []
  | c :: cs, l => l.filter (fun p => p.2 == c) ++ bucketsFrom cs l

/-- The candidate fetch of `hybridSearch` (`manager.js` 763–771): documents
whose content contains ANY keyword as a case-insensitive substring, capped at
`limit * 2` rows. -/
def fetchedCandidates (table : List DocRow) (query : List Char) (limit : Nat) :
    List DocRow :=
  (table.filter
    (fun d => (extractKeywords query).any (fun kw => containsKw d.content kw))).take
    (limit * 2)

/-- Model of `hybridSearch(query, limit)` (`manager.js` 750–786): extract keywords
(empty keyword list returns `[]` without touching storage), fetch up to
`limit * 2` candidates containing any keyword, rank by number of matching
keywords, sort descending (stable), truncate to `limit`, drop the rank
field. -/
def hybridSearch (table : List DocRow) (query : List Char) (limit : Nat) :
    List DocRow :=
  if (extractKeywords query).isEmpty then []
  else
    ((sortByCountDesc ((fetchedCandidates table query limit).map
        (fun d => (d, matchCount (extractKeywords query) d.content)))).take
      limit).map Prod.fst

/-- The ranked candidate pairs of `hybridSearch` (`manager.js` 777–781). -/
def rankedPairs (table : List DocRow) (query : List Char) (limit : Nat) :
    List (DocRow × Nat) :=
  (fetchedCandidates table query limit).map
    (fun d => (d, matchCount (extractKeywords query) d.content))

lemma insertDesc_front {β : Type} (x : β × Nat) (l : List (β × Nat))
    (h : ∀ y ∈ l, y.2 ≤ x.2) : insertDesc x l = x :: l := by
  cases l with
  | nil => rfl
  | cons y ys =>
    unfold insertDesc
    rw [if_neg (by have := h y (List.mem_cons_self y ys); omega)]

lemma insertDesc_append_gt {β : Type} (x : β × Nat) (l1 l2 : List (β × Nat))
    (h : ∀ y ∈ l1, x.2 < y.2) :
    insertDesc x (l1 ++ l2) = l1 ++ insertDesc x l2 := by
  induction l1 with
  | nil => rfl
  | cons y ys ih =>
    simp only [List.cons_append]
    rw [show insertDesc x (y :: (ys ++ l2))
        = if x.2 < y.2 then y :: insertDesc x (ys ++ l2) else x :: y :: (ys ++ l2)
      from rfl]
    rw [if_pos (h y (List.mem_cons_self y ys))]
    rw [ih (fun z hz => h z (List.mem_cons_of_mem y hz))]

lemma bucketsFrom_nil {β : Type} (cs : List Nat) :
    bucketsFrom cs ([] : List (β × Nat)) = [] := by
  induction cs with
  | nil => rfl
  | cons c cs ih => simp [bucketsFrom, ih]

lemma bucketsFrom_cons_ne {β : Type} (cs : List Nat) (x : β × Nat)
    (xs : List (β × Nat)) (h : ∀ c ∈ cs, x.2 ≠ c) :
    bucketsFrom cs (x :: xs) = bucketsFrom cs xs := by
  induction cs with
  | nil => rfl
  | cons c cs ih =>
    show (x :: xs).filter (fun p => p.2 == c) ++ bucketsFrom cs (x :: xs)
      = xs.filter (fun p => p.2 == c) ++ bucketsFrom cs xs
    rw [List.filter_cons,
      if_neg (by simpa using h c (List.mem_cons_self c cs)),
      ih (fun c' hc' => h c' (List.mem_cons_of_mem c hc'))]

lemma mem_bucketsFrom {β : Type} {cs : List Nat} {l : List (β × Nat)}
    {p : β × Nat} (h : p ∈ bucketsFrom cs l) : p ∈ l ∧ p.2 ∈ cs := by
  induction cs with
  | nil => exact absurd h (List.not_mem_nil p)
  | cons c cs ih =>
    rcases List.mem_append.mp h with h | h
    · have hm := List.mem_filter.mp h
      exact ⟨hm.1, by simp only [List.mem_cons]; left; simpa using hm.2⟩
    · obtain ⟨h1, h2⟩ := ih h
      exact ⟨h1, List.mem_cons_of_mem c h2⟩

lemma insert_buckets {β : Type} (x : β × Nat) (xs : List (β × Nat)) :
    ∀ cs : List Nat, cs.Pairwise (· > ·) → x.2 ∈ cs →
      insertDesc x (bucketsFrom cs xs) = bucketsFrom cs (x :: xs) := by
  intro cs
  induction cs with
  | nil => intro _ hx; exact absurd hx (List.not_mem_nil _)
  | cons c cs ih =>
    intro hcs hx
    have hpw := List.pairwise_cons.mp hcs
    by_cases hxc : x.2 = c
    · have hnotin : ∀ c' ∈ cs, x.2 ≠ c' := by
        intro c' hc'
        have := hpw.1 c' hc'
        omega
      have hle : ∀ y ∈ bucketsFrom (c :: cs) xs, y.2 ≤ x.2 := by
        intro y hy
        obtain ⟨_, hy2⟩ := mem_bucketsFrom hy
        rcases List.mem_cons.mp hy2 with h | h
        · omega
        · have := hpw.1 y.2 h
          omega
      rw [insertDesc_front x _ hle]
      show x :: (xs.filter (fun p => p.2 == c) ++ bucketsFrom cs xs)
        = (x :: xs).filter (fun p => p.2 == c) ++ bucketsFrom cs (x :: xs)
      rw [List.filter_cons, if_pos (by simpa using hxc),
        bucketsFrom_cons_ne cs x xs hnotin]
      rfl
    · have hx' : x.2 ∈ cs := by
        rcases List.mem_cons.mp hx with h | h
        · exact absurd h hxc
        · exact h
      have hgt : ∀ y ∈ xs.filter (fun p => p.2 == c), x.2 < y.2 := by
        intro y hy
        have hy2 : y.2 = c := by simpa using (List.mem_filter.mp hy).2
        have := hpw.1 x.2 hx'
        omega
      show insertDesc x (xs.filter (fun p => p.2 == c) ++ bucketsFrom cs xs)
        = (x :: xs).filter (fun p => p.2 == c) ++ bucketsFrom cs (x :: xs)
      rw [insertDesc_append_gt x _ _ hgt, ih hpw.2 hx', List.filter_cons,
        if_neg (by simpa using hxc)]

lemma sort_eq_buckets {β : Type} (cs : List Nat) (hcs : cs.Pairwise (· > ·)) :
    ∀ l : List (β × Nat), (∀ p ∈ l, p.2 ∈ cs) →
      sortByCountDesc l = bucketsFrom cs l := by
  intro l
  induction l with
  | nil => intro _; exact (bucketsFrom_nil cs).symm
  | cons x xs ih =>
    intro h
    show insertDesc x (sortByCountDesc xs) = _
    rw [ih (fun p hp => h p (List.mem_cons_of_mem x hp))]
    exact insert_buckets x xs cs hcs (h x (List.mem_cons_self x xs))

lemma bucketsFrom_sorted {β : Type} :
    ∀ cs : List Nat, cs.Pairwise (· ≥ ·) →
    ∀ l : List (β × Nat),
      (bucketsFrom cs l).Pairwise (fun a b => b.2 ≤ a.2) := by
  intro cs
  induction cs with
  | nil => intro _ l; exact List.Pairwise.nil
  | cons c cs ih =>
    intro hcs l
    have hpw := List.pairwise_cons.mp hcs
    show (l.filter (fun p => p.2 == c) ++ bucketsFrom cs l).Pairwise _
    rw [List.pairwise_append]
    refine ⟨?_, ih hpw.2 l, ?_⟩
    · refine List.pairwise_of_forall_mem_list ?_
      intro a ha b hb
      have ha2 : a.2 = c := by simpa using (List.mem_filter.mp ha).2
      have hb2 : b.2 = c := by simpa using (List.mem_filter.mp hb).2
      omega
    · intro a ha b hb
      have ha2 : a.2 = c := by simpa using (List.mem_filter.mp ha).2
      have hb2 : b.2 ∈ cs := (mem_bucketsFrom hb).2
      have := hpw.1 b.2 hb2
      omega

lemma extractKeywords_length_le (query : List Char) :
    (extractKeywords query).length ≤ 5 := by
  unfold extractKeywords
  exact List.length_take_le 5 _

lemma matchCount_le_five (query content : List Char) :
    matchCount (extractKeywords query) content ≤ 5 := by
  unfold matchCount
  calc (List.filter (fun kw => containsKw content kw) (extractKeywords query)).length
      ≤ (extractKeywords query).length := List.length_filter_le _ _
    _ ≤ 5 := extractKeywords_length_le query

/-- **C4**: in fallback mode `hybridSearch` fetches at most `2 * limit`
candidates each containing at least one of the up-to-5 keywords as a
case-insensitive substring, and returns at most `limit` of them ordered as
the stable descending sort by keyword-match count: the output is exactly the
concatenation of the count buckets 5, 4, 3, 2, 1, 0 of the fetched list, each
bucket retaining fetch order (ties keep fetch order), truncated to `limit`;
consequently match counts are non-increasing along the output and a returned
document with a strictly higher match count (e.g. 3 of 3 keywords) is ranked
strictly above one with a lower count (e.g. 1 of 3). -/
theorem hybridSearch_fallback_ranking (table : List DocRow) (query : List Char)
    (limit : Nat) :
    (hybridSearch table query limit).length ≤ limit ∧
    (fetchedCandidates table query limit).length ≤ 2 * limit ∧
    (∀ d ∈ fetchedCandidates table query limit,
      ∃ kw ∈ extractKeywords query, containsKw d.content kw = true) ∧
    (∀ d ∈ hybridSearch table query limit,
      d ∈ fetchedCandidates table query limit) ∧
    hybridSearch table query limit
      = ((bucketsFrom [5, 4, 3, 2, 1, 0]
          (rankedPairs table query limit)).take limit).map Prod.fst ∧
    (hybridSearch table query limit).Pairwise
      (fun a b => matchCount (extractKeywords query) b.content
        ≤ matchCount (extractKeywords query) a.content) ∧
    (∀ i j (hi : i < (hybridSearch table query limit).length)
        (hj : j < (hybridSearch table query limit).length),
      matchCount (extractKeywords query)
          (((hybridSearch table query limit).get ⟨j, hj⟩)).content
        < matchCount (extractKeywords query)
          (((hybridSearch table query limit).get ⟨i, hi⟩)).content → i < j) := by
  have hcand2 : (fetchedCandidates table query limit).length ≤ 2 * limit := by
    unfold fetchedCandidates
    have := List.length_take_le (limit * 2)
      (table.filter
        (fun d => (extractKeywords query).any (fun kw => containsKw d.content kw)))
    omega
  have hcandkw : ∀ d ∈ fetchedCandidates table query limit,
      ∃ kw ∈ extractKeywords query, containsKw d.content kw = true := by
    intro d hd
    unfold fetchedCandidates at hd
    have hd' := List.take_subset _ _ hd
    have := (List.mem_filter.mp hd').2
    exact List.any_eq_true.mp this
  by_cases hemp : (extractKeywords query).isEmpty = true
  · have hkws : extractKeywords query = [] := by
      cases hk : extractKeywords query with
      | nil => rfl
      | cons a t => rw [hk] at hemp; exact absurd hemp (by simp)
    have hfc : fetchedCandidates table query limit = [] := by
      unfold fetchedCandidates
      rw [hkws]
      simp
    have hout : hybridSearch table query limit = [] := by
      unfold hybridSearch
      rw [if_pos hemp]
    have hrp : rankedPairs table query limit = [] := by
      unfold rankedPairs
      rw [hfc]
      rfl
    refine ⟨?_, hcand2, hcandkw, ?_, ?_, ?_, ?_⟩
    · rw [hout]; simp
    · intro d hd; rw [hout] at hd; exact absurd hd (List.not_mem_nil d)
    · rw [hout, hrp, bucketsFrom_nil, List.take_nil, List.map_nil]
    · rw [hout]; exact List.Pairwise.nil
    · intro i j hi hj
      rw [hout] at hi
      exact absurd hi (by simp)
  · have hout : hybridSearch table query limit
        = ((sortByCountDesc (rankedPairs table query limit)).take limit).map
          Prod.fst := by
      unfold hybridSearch
      rw [if_neg hemp]
      rfl
    have hsort : sortByCountDesc (rankedPairs table query limit)
        = bucketsFrom [5, 4, 3, 2, 1, 0] (rankedPairs table query limit) := by
      refine sort_eq_buckets _ (by decide) _ ?_
      intro p hp
      obtain ⟨d, _, rfl⟩ := List.mem_map.mp hp
      have h5 := matchCount_le_five query d.content
      simp only [List.mem_cons]
      omega
    have hmem_out : ∀ d ∈ hybridSearch table query limit,
        d ∈ fetchedCandidates table query limit := by
      intro d hd
      rw [hout] at hd
      obtain ⟨p, hp, rfl⟩ := List.mem_map.mp hd
      have hp' := List.take_subset _ _ hp
      rw [hsort] at hp'
      have hpr := (mem_bucketsFrom hp').1
      obtain ⟨d0, hd0, heq⟩ := List.mem_map.mp hpr
      rw [← heq]
      exact hd0
    have hcount : ∀ p ∈ (sortByCountDesc (rankedPairs table query limit)).take limit,
        p.2 = matchCount (extractKeywords query) p.1.content := by
      intro p hp
      have hp' := List.take_subset _ _ hp
      rw [hsort] at hp'
      have hpr := (mem_bucketsFrom hp').1
      obtain ⟨d0, _, heq⟩ := List.mem_map.mp hpr
      rw [← heq]
    have hpw : (hybridSearch table query limit).Pairwise
        (fun a b => matchCount (extractKeywords query) b.content
          ≤ matchCount (extractKeywords query) a.content) := by
      rw [hout]
      refine List.pairwise_map.mpr ?_
      have hsorted : (sortByCountDesc (rankedPairs table query limit)).Pairwise
          (fun a b => b.2 ≤ a.2) := by
        rw [hsort]
        exact bucketsFrom_sorted _ (by decide) _
      have htake := hsorted.sublist (List.take_sublist limit _)
      refine htake.imp_of_mem ?_
      intro a b ha hb hr
      rw [← hcount a ha, ← hcount b hb]
      exact hr
    refine ⟨?_, hcand2, hcandkw, hmem_out, ?_, hpw, ?_⟩
    · rw [hout]
      rw [List.length_map]
      exact List.length_take_le limit _
    · rw [hout, hsort]
    · intro i j hi hj hlt
      by_contra hij
      push_neg at hij
      rcases Nat.lt_or_ge j i with hji | hji
      · have hget := List.pairwise_iff_get.mp hpw ⟨j, hj⟩ ⟨i, hi⟩ hji
        omega
      · have : i = j := by omega
        subst this
        omega

/-- The storage operations relevant to search-strategy selection: the
`or`-of-`ilike` candidate select actually issued by `hybridSearch`, a
tsvector full-text-search select, and a probe of full-text-search
availability (the latter two never occur in `manager.js`). -/
inductive StorageOp where
  | docsSelectIlikeAny (keywords : List (List Char)) (fetchLimit : Nat)
  | docsSelectTextSearch (query : List Char) (fetchLimit : Nat)
  | ftsCapabilityProbe
deriving Repr, DecidableEq

/-- The storage operations issued by one `hybridSearch(query, limit)` call
(`manager.js` 750–786): nothing when the keyword list is empty, otherwise
exactly one `or`-of-`ilike` select capped at `limit * 2`.  The function body
contains no full-text-search query and no capability probe. -/
def hybridSearchOps (query : List Char) (limit : Nat) : List StorageOp :=
  if (extractKeywords query).isEmpty then []
  else [StorageOp.docsSelectIlikeAny (extractKeywords query) (limit * 2)]

/-- The storage operations of a sequence of `hybridSearch` calls within one
process lifetime. -/
def hybridSearchCallsOps : List (List Char × Nat) → List StorageOp
  | [] => []
  | c :: rest => hybridSearchOps c.1 c.2 ++ hybridSearchCallsOps rest

/-- Is the operation a capability probe or a full-text-search query? -/
def isProbeOrFts : StorageOp → Bool
  | StorageOp.ftsCapabilityProbe => true
  | StorageOp.docsSelectTextSearch _ _ => true
  | StorageOp.docsSelectIlikeAny _ _ => false

/-- **C6**: `hybridSearch` performs no auto-selection at all: across any
sequence of calls the issued storage operations contain zero capability
probes and zero full-text-search queries — every call (with keywords) issues
only the pattern-matching `ilike` select.  In particular the first call of a
process performs no probe, contradicting the claimed probe-based strategy
selection. -/
theorem hybridSearch_never_probes :
    (∀ calls : List (List Char × Nat),
      (hybridSearchCallsOps calls).filter isProbeOrFts = []) ∧
    hybridSearchCallsOps [("hello world".toList, 5), ("hello again".toList, 5)]
      = [StorageOp.docsSelectIlikeAny ["hello".toList, "world".toList] 10,
        StorageOp.docsSelectIlikeAny ["hello".toList, "again".toList] 10] := by
  constructor
  · intro calls
    induction calls with
    | nil => rfl
    | cons c rest ih =>
      show (hybridSearchOps c.1 c.2 ++ hybridSearchCallsOps rest).filter isProbeOrFts = []
      rw [List.filter_append, ih, List.append_nil]
      unfold hybridSearchOps
      split
      · rfl
      · rfl
  · decide

/-- An entity row as returned by the `getDetailedContext` entity select
(`manager.js` 822–826): the column list is `name, entity_type, observations`,
so the row has no id (`e.id` is undefined in JS, `none` here). -/
structure EntityProjRow where
  id : Option Nat
  name : List Char
  entity_type : List Char
  observations : List String
deriving Repr, DecidableEq

/-- The state read by `getDetailedContext`. -/
structure ContextStore where
  documents : List DocRow
  entities : List EntityRow
  rels : List RelRow
deriving Repr, DecidableEq

/-- The result shape of `getDetailedContext`. -/
structure ContextResult where
  documents : List DocRow
  entities : List EntityProjRow
  relationships : List RelRow
deriving Repr, DecidableEq

/-- Model of `getDetailedContext(query, { limit, includeEntities })`
(`manager.js` 795–846): keyword document search (capped at `limit`); when
`includeEntities`, a case-insensitive substring match of the raw query
against entity names (capped at `limit`, projected without the id column),
then `entityIds = entities.map(e => e.id).filter(Boolean)` and — only when
that list is non-empty — a select of relationships whose source is in it,
capped at `limit`. -/
def getDetailedContext (s : ContextStore) (query : List Char) (limit : Nat)
    (includeEntities : Bool) : ContextResult :=
  let keywords := extractKeywords query
  let documents :=
    if keywords.isEmpty then []
    else (s.documents.filter (fun d => keywords.any (fun kw => containsKw d.content kw))).take limit
  if includeEntities then
    let entities := ((s.entities.filter
        (fun e => containsSub (e.name.map Char.toLower) (query.map Char.toLower))).take
        limit).map
      (fun e => (⟨none, e.name, e.entity_type, e.observations⟩ : EntityProjRow))
    let entityIds := (entities.map (fun e => e.id)).filterMap (fun x => x)
    let relationships :=
      if entityIds.isEmpty then []
      else (s.rels.filter (fun r => entityIds.contains r.source_entity)).take limit
    ⟨documents, entities, relationships⟩
  else ⟨documents, [], []⟩

/-- The ids extracted from projected entity rows are always the empty list:
every projected row's id is `none`. -/
lemma proj_ids_empty (l : List EntityRow) :
    (((l.map (fun e => (⟨none, e.name, e.entity_type, e.observations⟩ : EntityProjRow))).map
      (fun e => e.id)).filterMap (fun x => x)) = [] := by
  induction l with
  | nil => rfl
  | cons e t ih => simp only [List.map_cons, List.filterMap_cons]; exact ih

/-- The scenario store for C7: "React" (id 1) with the outgoing relationship
React --BUILT_WITH--> JavaScript (id 2). -/
def contextStoreExample : ContextStore :=
  { documents := []
    entities :=
      [⟨1, "React".toList, "TECHNOLOGY".toList, []⟩,
        ⟨2, "JavaScript".toList, "TECHNOLOGY".toList, []⟩]
    rels := [⟨1, 2, "BUILT_WITH"⟩] }

/-- **C7**: `getDetailedContext` never returns any relationship: the entity
select omits the id column, so `entityIds` is always empty and the
relationship fetch never runs.  Concretely, for the query "React" on a store
where the matched entity "React" (id 1) has an outgoing relationship, the
result still has `relationships = []`, refuting the claim that the
relationships list is non-empty whenever a matched entity has an outgoing
relationship. -/
theorem getDetailedContext_relationships_always_empty :
    (∀ (s : ContextStore) (query : List Char) (limit : Nat) (inc : Bool),
      (getDetailedContext s query limit inc).relationships = []) ∧
    (getDetailedContext contextStoreExample "React".toList 5 true).entities.map
        (fun e => e.name) = ["React".toList] ∧
    (∃ r ∈ contextStoreExample.rels, r.source_entity = 1) ∧
    (∃ e ∈ contextStoreExample.entities, e.name = "React".toList ∧ e.id = 1) ∧
    (getDetailedContext contextStoreExample "React".toList 5 true).relationships
      = [] := by
  refine ⟨?_, by decide, by decide, by decide, by decide⟩
  intro s query limit inc
  unfold getDetailedContext
  cases inc with
  | false => rfl
  | true =>
    show (ContextResult.mk _ _ _).relationships = []
    rw [proj_ids_empty]
    rfl

/-- The embedding provider selector: `MODE=local` or `MODE=openai`. -/
inductive EmbedMode where
  | localMode
  | openaiMode
deriving Repr, DecidableEq

/-- Model of `generateEmbedding(text)` (`manager.js` 88–114), abstracted over the two
providers: `none` when the model is uninitialized; in openai mode with a
configured client, the remote API called with `dimensions: 384`; otherwise
the local model.  `localModel` stands for the `Xenova/all-MiniLM-L12-v2`
pipeline and `remoteEmbed d` for `openai.embeddings.create` with
`dimensions: d` — both external collaborators returning `none` on any
provider error. -/
def generateEmbedding {α : Type} (modelInit : Bool) (mode : EmbedMode)
    (openaiConfigured : Bool) (localModel : List Char → Option (List α))
    (remoteEmbed : Nat → List Char → Option (List α)) (text : List Char) :
    Option (List α) :=
  if !modelInit then none
  else
    match mode, openaiConfigured with
    | EmbedMode.openaiMode, true => remoteEmbed 384 text
    | _, _ => localModel text

/-- **C9**: whichever provider is selected, every vector `generateEmbedding`
returns has length 384 (or the result is null), under the providers'
documented contracts — the local model produces 384-dimensional vectors and
the remote API honours its `dimensions` parameter, which the code fixes at
384 to match. -/
theorem generateEmbedding_dims {α : Type} (modelInit : Bool) (mode : EmbedMode)
    (openaiConfigured : Bool) (localModel : List Char → Option (List α))
    (remoteEmbed : Nat → List Char → Option (List α)) (text : List Char)
    (hlocal : ∀ t v, localModel t = some v → v.length = 384)
    (hremote : ∀ d t v, remoteEmbed d t = some v → v.length = d) :
    ∀ v, generateEmbedding modelInit mode openaiConfigured localModel
      remoteEmbed text = some v → v.length = 384 := by
  intro v hv
  unfold generateEmbedding at hv
  split at hv
  · exact absurd hv (by simp)
  · split at hv
    · exact hremote 384 text v hv
    · exact hlocal text v hv

/-- Witness for C9: in openai mode with providers satisfying their contracts,
the returned vector has length 384. -/
theorem generateEmbedding_dims_witness :
    generateEmbedding true EmbedMode.openaiMode true
        (fun _ => some (List.replicate 384 (0 : Int)))
        (fun d _ => some (List.replicate d (0 : Int)))
        "hello".toList = some (List.replicate 384 (0 : Int)) ∧
    (List.replicate 384 (0 : Int)).length = 384 :=
  ⟨rfl,
    generateEmbedding_dims true EmbedMode.openaiMode true
      (fun _ => some (List.replicate 384 (0 : Int)))
      (fun d _ => some (List.replicate d (0 : Int)))
      "hello".toList
      (fun t v h => by
        injection h with h
        rw [← h]
        exact List.length_replicate 384 0)
      (fun d t v h => by
        injection h with h
        rw [← h]
        exact List.length_replicate d 0)
      (List.replicate 384 (0 : Int)) rfl⟩

end RagMemory
